import Mathlib

/-!
# Verification of the SED averaging-and-interpolation pipeline

A shallow embedding of `superbol/sed.py`.  Python floats are modelled as
exact numbers: the `flux` and `flux_uncertainty` payloads live in `ℝ`
(square roots appear in uncertainty propagation), while the `wavelength`
and `time` fields, which drive all control flow (grouping, membership
tests, neighbour search), live in `ℚ` so that every branch in the model
is decidable.  Python code that can raise (`max`/`min` of an empty
sequence, indexing `SED[0]` of an empty list) is modelled with `Option`:
`none` is a raised exception propagating to the caller.
-/

namespace SuperBoL

/-- One flux measurement: `MonochromaticFlux(flux, flux_uncertainty, wavelength, time)`. -/
structure MonochromaticFlux where
  flux : ℝ
  flux_uncertainty : ℝ
  wavelength : ℚ
  time : ℚ

instance : Inhabited MonochromaticFlux := ⟨⟨0, 0, 0, 0⟩⟩

/-- `get_weights`: `[1/s**2 for s in uncertainties]`. -/
noncomputable def get_weights (uncertainties : List ℝ) : List ℝ :=
  uncertainties.map (fun s => 1 / s ^ 2)

/-- `weighted_average`: `sum([weights[i] * values[i] for i in range(len(values))]) / sum(weights)`.
Out-of-range indexing (only possible when the two lists have different
lengths, which the source never does) is modelled by a default of `0`. -/
noncomputable def weighted_average (values uncertainties : List ℝ) : ℝ :=
  let weights := get_weights uncertainties
  let denominator := weights.sum
  let numerator :=
    ((List.range values.length).map (fun i => weights.getD i 0 * values.getD i 0)).sum
  numerator / denominator

/-- `weighted_average_uncertainty`: `1.0/math.sqrt(sum(weights))`. -/
noncomputable def weighted_average_uncertainty (uncertainties : List ℝ) : ℝ :=
  1 / Real.sqrt (get_weights uncertainties).sum

/-- `get_flux_values`: `[f.flux for f in fluxes]`. -/
def get_flux_values (fluxes : List MonochromaticFlux) : List ℝ :=
  fluxes.map (fun f => f.flux)

/-- `get_flux_uncertainties`: `[f.flux_uncertainty for f in fluxes]`. -/
def get_flux_uncertainties (fluxes : List MonochromaticFlux) : List ℝ :=
  fluxes.map (fun f => f.flux_uncertainty)

/-- `get_times`: `[f.time for f in fluxes]`. -/
def get_times (fluxes : List MonochromaticFlux) : List ℚ :=
  fluxes.map (fun f => f.time)

/-- `combine_fluxes`: weighted average of a list of fluxes; `wavelength` and
`time` are read from `fluxes[0]` (the source raises on an empty list, which
no caller produces; the model reads the default head). -/
noncomputable def combine_fluxes (fluxes : List MonochromaticFlux) : MonochromaticFlux :=
  { flux := weighted_average (get_flux_values fluxes) (get_flux_uncertainties fluxes)
    flux_uncertainty := weighted_average_uncertainty (get_flux_uncertainties fluxes)
    wavelength := fluxes.headI.wavelength
    time := fluxes.headI.time }

/-- `yield_fluxes_at_each_observed_wavelength`: one list of fluxes per distinct
wavelength.  Python iterates a `set`, whose order is unspecified; the model
uses first-occurrence order. -/
def yield_fluxes_at_each_observed_wavelength (fluxes : List MonochromaticFlux) :
    List (List MonochromaticFlux) :=
  ((fluxes.map (fun f => f.wavelength)).dedup).map
    (fun wavelength => fluxes.filter (fun f => f.wavelength == wavelength))

/-- `get_SED`: keep singleton wavelength groups, combine larger ones. -/
noncomputable def get_SED (fluxes : List MonochromaticFlux) : List MonochromaticFlux :=
  (yield_fluxes_at_each_observed_wavelength fluxes).map
    (fun f => if f.length = 1 then f.headI else combine_fluxes f)

/-! ## Helper lemmas on the weighted average -/

/-- The range-indexed numerator of `weighted_average` is a sum over zipped pairs. -/
theorem numerator_eq_zip_sum :
    ∀ (ws vs : List ℝ), ws.length = vs.length →
      ((List.range vs.length).map (fun i => ws.getD i 0 * vs.getD i 0)).sum
        = ((ws.zip vs).map (fun p => p.1 * p.2)).sum := by
  intro ws vs
  induction vs generalizing ws with
  | nil => intro h; simp
  | cons v vs ih =>
    intro h
    cases ws with
    | nil => simp at h
    | cons w ws =>
      have h' : ws.length = vs.length := by simpa using h
      simp only [List.length_cons, List.range_succ_eq_map, List.map_cons, List.map_map,
        List.sum_cons, List.zip_cons_cons, List.getD_cons_zero]
      rw [← ih ws h']
      congr 1

theorem weighted_average_eq_zip (values uncertainties : List ℝ)
    (hlen : values.length = uncertainties.length) :
    weighted_average values uncertainties
      = (((get_weights uncertainties).zip values).map (fun p => p.1 * p.2)).sum
          / (get_weights uncertainties).sum := by
  simp only [weighted_average]
  rw [numerator_eq_zip_sum _ _ (by simp [get_weights, hlen])]

/-- Each weight `1/s^2` is positive when `s ≠ 0`. -/
theorem get_weights_pos (uncertainties : List ℝ)
    (hu : ∀ u ∈ uncertainties, u ≠ 0) :
    ∀ w ∈ get_weights uncertainties, 0 < w := by
  intro w hw
  simp only [get_weights, List.mem_map] at hw
  obtain ⟨u, hu', rfl⟩ := hw
  have : u ≠ 0 := hu u hu'
  positivity

theorem get_weights_cons (u : ℝ) (us : List ℝ) :
    get_weights (u :: us) = (1 / u ^ 2) :: get_weights us := rfl

theorem get_weights_sum_pos (uncertainties : List ℝ) (hne : uncertainties ≠ [])
    (hu : ∀ u ∈ uncertainties, u ≠ 0) :
    0 < (get_weights uncertainties).sum := by
  have hlen : get_weights uncertainties ≠ [] := by
    simp [get_weights, hne]
  obtain ⟨w, ws, hws⟩ := List.exists_cons_of_ne_nil hlen
  have hpos := get_weights_pos uncertainties hu
  rw [hws] at hpos ⊢
  have h₁ : 0 < w := hpos w (by simp)
  have h₂ : 0 ≤ ws.sum := by
    apply List.sum_nonneg
    intro x hx
    exact le_of_lt (hpos x (by simp [hx]))
  simp only [List.sum_cons]
  linarith

/-- The zipped weight-value products, read from the values side. -/
theorem weights_zip_eq (us vs : List ℝ) :
    ((get_weights us).zip vs).map (fun p => p.1 * p.2)
      = (vs.zip us).map (fun p => 1 / p.2 ^ 2 * p.1) := by
  induction us generalizing vs with
  | nil => simp [get_weights]
  | cons u us ih =>
    cases vs with
    | nil => simp [get_weights]
    | cons v vs =>
      simp only [get_weights_cons, List.zip_cons_cons, List.map_cons]
      rw [ih vs]

theorem zip_weight_sum_le_bound (B : ℝ) :
    ∀ (us vs : List ℝ), vs.length = us.length → (∀ u ∈ us, u ≠ 0) →
      (∀ v ∈ vs, v ≤ B) →
      (((get_weights us).zip vs).map (fun p => p.1 * p.2)).sum
        ≤ B * (get_weights us).sum := by
  intro us
  induction us with
  | nil =>
    intro vs h _ _
    simp [get_weights]
  | cons u us ih =>
    intro vs h hu hB
    cases vs with
    | nil => simp at h
    | cons v vs =>
      have h' : vs.length = us.length := by simpa using h
      have hw : (0:ℝ) < 1 / u ^ 2 := by
        have : u ≠ 0 := hu u (by simp)
        positivity
      have h1 : (1 / u ^ 2) * v ≤ B * (1 / u ^ 2) := by
        rw [mul_comm B (1 / u ^ 2)]
        exact mul_le_mul_of_nonneg_left (hB v (by simp)) (le_of_lt hw)
      have h2 := ih vs h' (fun x hx => hu x (by simp [hx])) (fun x hx => hB x (by simp [hx]))
      simp only [get_weights_cons, List.zip_cons_cons, List.map_cons, List.sum_cons]
      rw [mul_add]
      exact add_le_add h1 h2

theorem zip_weight_sum_ge_bound (A : ℝ) :
    ∀ (us vs : List ℝ), vs.length = us.length → (∀ u ∈ us, u ≠ 0) →
      (∀ v ∈ vs, A ≤ v) →
      A * (get_weights us).sum
        ≤ (((get_weights us).zip vs).map (fun p => p.1 * p.2)).sum := by
  intro us
  induction us with
  | nil =>
    intro vs h _ _
    simp [get_weights]
  | cons u us ih =>
    intro vs h hu hA
    cases vs with
    | nil => simp at h
    | cons v vs =>
      have h' : vs.length = us.length := by simpa using h
      have hw : (0:ℝ) < 1 / u ^ 2 := by
        have : u ≠ 0 := hu u (by simp)
        positivity
      have h1 : A * (1 / u ^ 2) ≤ (1 / u ^ 2) * v := by
        rw [mul_comm A (1 / u ^ 2)]
        exact mul_le_mul_of_nonneg_left (hA v (by simp)) (le_of_lt hw)
      have h2 := ih vs h' (fun x hx => hu x (by simp [hx])) (fun x hx => hA x (by simp [hx]))
      simp only [get_weights_cons, List.zip_cons_cons, List.map_cons, List.sum_cons]
      rw [mul_add]
      exact add_le_add h1 h2

instance : Std.Antisymm (fun a b : ℝ => a ≤ b) := ⟨fun h h' => le_antisymm h h'⟩

/-! ## Claims C4 and C8: the weighted average -/

/-- C4: for non-empty, equal-length `values`/`uncertainties` with nonzero
uncertainties, `weighted_average` returns `Σ(weight_i * value_i) / Σ(weight_i)`
with `weight_i = 1 / uncertainty_i^2`; in particular values `[10, 20]` with
uncertainties `[1, 2]` give `12`. -/
theorem claim_C4_weighted_average (values uncertainties : List ℝ)
    (hlen : values.length = uncertainties.length) (hne : values ≠ [])
    (hu : ∀ u ∈ uncertainties, u ≠ 0) :
    weighted_average values uncertainties
      = ((values.zip uncertainties).map (fun p => 1 / p.2 ^ 2 * p.1)).sum
          / (uncertainties.map (fun u => 1 / u ^ 2)).sum
      ∧ weighted_average [10, 20] [1, 2] = 12 := by
  constructor
  · rw [weighted_average_eq_zip values uncertainties hlen, weights_zip_eq]
    rfl
  · rw [weighted_average_eq_zip [10, 20] [1, 2] (by simp)]
    simp only [get_weights, List.map_cons, List.map_nil, List.zip_cons_cons, List.zip_nil_right,
      List.sum_cons, List.sum_nil]
    norm_num

theorem claim_C4_witness : weighted_average [10, 20] [1, 2] = 12 :=
  (claim_C4_weighted_average [10, 20] [1, 2] (by simp) (by simp)
      (by intro u hu; simp at hu; rcases hu with rfl | rfl <;> norm_num)).2

/-- C8: for non-empty, equal-length `values`/`uncertainties` with nonzero
uncertainties, the weighted average lies within `[min values, max values]`. -/
theorem claim_C8_weighted_average_in_range (values uncertainties : List ℝ)
    (hlen : values.length = uncertainties.length) (hne : values ≠ [])
    (hu : ∀ u ∈ uncertainties, u ≠ 0) (m M : ℝ)
    (hm : values.min? = some m) (hM : values.max? = some M) :
    m ≤ weighted_average values uncertainties
      ∧ weighted_average values uncertainties ≤ M := by
  rw [List.min?_eq_some_iff (fun a => le_refl a) (fun a b => min_choice a b)
    (fun a b c => le_min_iff)] at hm
  rw [List.max?_eq_some_iff (fun a => le_refl a) (fun a b => max_choice a b)
    (fun a b c => max_le_iff)] at hM
  have hune : uncertainties ≠ [] := by
    intro h
    subst h
    simp only [List.length_nil] at hlen
    exact hne (List.length_eq_zero.mp hlen)
  have hden := get_weights_sum_pos uncertainties hune hu
  rw [weighted_average_eq_zip values uncertainties hlen]
  constructor
  · rw [le_div_iff hden]
    have := zip_weight_sum_ge_bound m uncertainties values hlen hu (fun v hv => hm.2 v hv)
    linarith
  · rw [div_le_iff hden]
    have := zip_weight_sum_le_bound M uncertainties values hlen hu (fun v hv => hM.2 v hv)
    linarith

theorem claim_C8_witness :
    (10 : ℝ) ≤ weighted_average [10, 20] [1, 2]
      ∧ weighted_average [10, 20] [1, 2] ≤ 20 :=
  claim_C8_weighted_average_in_range [10, 20] [1, 2] (by simp) (by simp)
    (by intro u hu; simp at hu; rcases hu with rfl | rfl <;> norm_num)
    10 20
    (by simp [List.min?]; norm_num [min_def])
    (by simp [List.max?]; norm_num [max_def])

/-! ## The gap interpolator: definitions -/

/-- `get_interpolated_flux_uncertainty`.  Note the shape of the radicand in the
source: `weight1**2 * previous_flux.flux_uncertainty**2 + weight2**2 +
next_flux.flux_uncertainty**2` — the second and third summands are joined by
`+`, not `*`. -/
noncomputable def get_interpolated_flux_uncertainty
    (previous_flux next_flux : MonochromaticFlux) (unobserved_time : ℚ) : ℝ :=
  let weight1 := (next_flux.time - unobserved_time) / (next_flux.time - previous_flux.time)
  let weight2 := (unobserved_time - previous_flux.time) / (next_flux.time - previous_flux.time)
  Real.sqrt ((weight1 : ℝ) ^ 2 * previous_flux.flux_uncertainty ^ 2
    + (weight2 : ℝ) ^ 2 + next_flux.flux_uncertainty ^ 2)

/-- The running maximum of Python's `max(..., key=...)`: the current best is
replaced only when a strictly larger key appears, so ties keep the earliest. -/
def max_from (g : MonochromaticFlux) : List MonochromaticFlux → MonochromaticFlux
  | [] => g
  | f :: rest => max_from (if f.time > g.time then f else g) rest

/-- The running minimum of Python's `min(..., key=...)`. -/
def min_from (g : MonochromaticFlux) : List MonochromaticFlux → MonochromaticFlux
  | [] => g
  | f :: rest => min_from (if f.time < g.time then f else g) rest

/-- `max(fluxes, key=lambda flux: flux.time)`: `none` on an empty list
(Python raises `ValueError`). -/
def max_by_time : List MonochromaticFlux → Option MonochromaticFlux
  | [] => none
  | f :: rest => some (max_from f rest)

/-- `min(fluxes, key=lambda flux: flux.time)`: `none` on an empty list
(Python raises `ValueError`). -/
def min_by_time : List MonochromaticFlux → Option MonochromaticFlux
  | [] => none
  | f :: rest => some (min_from f rest)

/-- `get_previous_flux`: the flux with the largest time strictly below
`unobserved_time`. -/
def get_previous_flux (monochromatic_lightcurve : List MonochromaticFlux)
    (unobserved_time : ℚ) : Option MonochromaticFlux :=
  max_by_time (monochromatic_lightcurve.filter (fun flux => unobserved_time - flux.time > 0))

/-- `get_next_flux`: the flux with the smallest time strictly above
`unobserved_time`. -/
def get_next_flux (monochromatic_lightcurve : List MonochromaticFlux)
    (unobserved_time : ℚ) : Option MonochromaticFlux :=
  min_by_time (monochromatic_lightcurve.filter (fun flux => unobserved_time - flux.time < 0))

/-- The flux built for one unobserved time: `scipy.interpolate.interp1d` on the
two bracketing points is exact linear interpolation, so the value is
`prev.flux + (t - prev.time) * (next.flux - prev.flux) / (next.time - prev.time)`;
wavelength is `previous_flux.wavelength`, time is the unobserved time. -/
noncomputable def interpolate_flux (previous_flux next_flux : MonochromaticFlux)
    (unobserved_time : ℚ) : MonochromaticFlux :=
  { flux := previous_flux.flux
      + ((unobserved_time : ℝ) - (previous_flux.time : ℝ))
        * (next_flux.flux - previous_flux.flux)
        / ((next_flux.time : ℝ) - (previous_flux.time : ℝ))
    flux_uncertainty := get_interpolated_flux_uncertainty previous_flux next_flux unobserved_time
    wavelength := previous_flux.wavelength
    time := unobserved_time }

/-- `get_unobserved_times`: the observed epochs absent from the lightcurve. -/
def get_unobserved_times (lightcurve : List MonochromaticFlux)
    (observed_times : List ℚ) : List ℚ :=
  let times := get_times lightcurve
  observed_times.filter (fun observed_time => !(times.contains observed_time))

/-- The loop body of `get_interpolated_fluxes`: for each unobserved time, look
up both neighbours (`none` = the `ValueError` raised by `max`/`min` of an empty
sequence, which the source does not catch) and keep the interpolated flux when
the bracketing gap is at most 2. -/
noncomputable def interpolate_unobserved (lightcurve : List MonochromaticFlux) :
    List ℚ → Option (List MonochromaticFlux)
  | [] => some []
  | t :: ts => do
    let previous_flux ← get_previous_flux lightcurve t
    let next_flux ← get_next_flux lightcurve t
    let rest ← interpolate_unobserved lightcurve ts
    if next_flux.time - previous_flux.time ≤ 2 then
      some (interpolate_flux previous_flux next_flux t :: rest)
    else
      some rest

/-- `get_interpolated_fluxes`. -/
noncomputable def get_interpolated_fluxes (lightcurve : List MonochromaticFlux)
    (observed_times : List ℚ) : Option (List MonochromaticFlux) :=
  interpolate_unobserved lightcurve (get_unobserved_times lightcurve observed_times)

/-- The inner loop of `append_interpolated_fluxes_to_SEDs` for one SED: each
interpolated flux whose time equals `SED[0].time` is appended; reading `SED[0]`
of an empty SED raises (`none`).  The head of the accumulator is the head of
the original SED, since appends only extend the list on the right. -/
def append_to_SED : List MonochromaticFlux → List MonochromaticFlux →
    Option (List MonochromaticFlux)
  | SED, [] => some SED
  | SED, interpolated_flux :: rest =>
    match h : SED.head? with
    | none => none
    | some first =>
      if interpolated_flux.time == first.time then
        append_to_SED (SED ++ [interpolated_flux]) rest
      else
        append_to_SED SED rest

/-- `append_interpolated_fluxes_to_SEDs`: mutate every SED in the collection. -/
def append_interpolated_fluxes_to_SEDs (interpolated_fluxes : List MonochromaticFlux) :
    List (List MonochromaticFlux) → Option (List (List MonochromaticFlux))
  | [] => some []
  | SED :: SEDs => do
    let SED' ← append_to_SED SED interpolated_fluxes
    let SEDs' ← append_interpolated_fluxes_to_SEDs interpolated_fluxes SEDs
    some (SED' :: SEDs')

/-- `sorted(list(set(xs)))`. -/
def sorted_set (xs : List ℚ) : List ℚ :=
  List.insertionSort (fun a b => a ≤ b) xs.dedup

/-- `get_observed_wavelengths`: sorted distinct wavelengths across all SEDs. -/
def get_observed_wavelengths (SEDs : List (List MonochromaticFlux)) : List ℚ :=
  sorted_set ((SEDs.map (fun SED => SED.map (fun f => f.wavelength))).flatten)

/-- `get_observed_times`: sorted distinct times across all SEDs. -/
def get_observed_times (SEDs : List (List MonochromaticFlux)) : List ℚ :=
  sorted_set ((SEDs.map (fun SED => get_times SED)).flatten)

/-- `get_monochromatic_lightcurve`: all fluxes at a given wavelength, in SED
order. -/
def get_monochromatic_lightcurve (SEDs : List (List MonochromaticFlux))
    (wavelength : ℚ) : List MonochromaticFlux :=
  (SEDs.map (fun SED => SED.filter (fun f => f.wavelength == wavelength))).flatten

/-- The `for wl in observed_wavelengths` loop of `interpolate_missing_fluxes`;
`observed_times` was computed before the loop and stays fixed. -/
noncomputable def interpolate_over_wavelengths (observed_times : List ℚ) :
    List (List MonochromaticFlux) → List ℚ → Option (List (List MonochromaticFlux))
  | SEDs, [] => some SEDs
  | SEDs, wl :: wls => do
    let lightcurve := get_monochromatic_lightcurve SEDs wl
    let interpolated_fluxes ← get_interpolated_fluxes lightcurve observed_times
    let SEDs' ← append_interpolated_fluxes_to_SEDs interpolated_fluxes SEDs
    interpolate_over_wavelengths observed_times SEDs' wls

/-- `interpolate_missing_fluxes`: the whole second stage.  `none` models an
uncaught exception escaping to the caller. -/
noncomputable def interpolate_missing_fluxes (SEDs : List (List MonochromaticFlux)) :
    Option (List (List MonochromaticFlux)) :=
  interpolate_over_wavelengths (get_observed_times SEDs) SEDs (get_observed_wavelengths SEDs)

/-! ## Claim C2: the interpolated-flux uncertainty -/

/-- C2 (code evaluation): at `prev = (10, 1, 5, 1)`, `next = (20, 2, 5, 3)`,
`t = 2` (so `weight1 = weight2 = 1/2`), the source computes
`sqrt(w1^2*1^2 + w2^2 + 2^2) = sqrt(9/2)`, which differs from the claimed
`sqrt(w1^2 * prev.unc^2 + w2^2 * next.unc^2) = sqrt(5/4)`. -/
theorem claim_C2_uncertainty_formula_bug :
    get_interpolated_flux_uncertainty ⟨10, 1, 5, 1⟩ ⟨20, 2, 5, 3⟩ 2 = Real.sqrt (9 / 2)
      ∧ get_interpolated_flux_uncertainty ⟨10, 1, 5, 1⟩ ⟨20, 2, 5, 3⟩ 2
          ≠ Real.sqrt ((1 / 2 : ℝ) ^ 2 * 1 ^ 2 + (1 / 2 : ℝ) ^ 2 * 2 ^ 2) := by
  have hval : get_interpolated_flux_uncertainty ⟨10, 1, 5, 1⟩ ⟨20, 2, 5, 3⟩ 2
      = Real.sqrt (9 / 2) := by
    simp only [get_interpolated_flux_uncertainty]
    norm_num
  refine ⟨hval, ?_⟩
  rw [hval]
  intro heq
  have h92 : (0:ℝ) ≤ 9 / 2 := by norm_num
  have h54 : (0:ℝ) ≤ (1 / 2 : ℝ) ^ 2 * 1 ^ 2 + (1 / 2 : ℝ) ^ 2 * 2 ^ 2 := by norm_num
  have := (Real.sqrt_inj h92 h54).mp heq
  norm_num at this

/-! ## Claim C1: a missing leading/trailing neighbour raises -/

/-- C1 (code evaluation): with SEDs `[[(1,1,3,1)], [(2,1,3,2), (5,1,4,2)]]`,
wavelength `4` is observed only at time `2`, so epoch `1` has no previous
flux in its lightcurve; `get_previous_flux` takes the `max` of an empty
sequence and the resulting error escapes `interpolate_missing_fluxes`
(modelled by `none`) instead of the epoch being skipped. -/
theorem claim_C1_edge_epoch_raises :
    interpolate_missing_fluxes [[⟨1, 1, 3, 1⟩], [⟨2, 1, 3, 2⟩, ⟨5, 1, 4, 2⟩]] = none := by
  with_unfolding_all rfl

/-! ## Neighbour-search lemmas -/

theorem max_from_cases (l : List MonochromaticFlux) :
    ∀ g, max_from g l = g ∨ max_from g l ∈ l := by
  induction l with
  | nil => intro g; left; rfl
  | cons f rest ih =>
    intro g
    rw [max_from]
    by_cases h : f.time > g.time
    · rw [if_pos h]
      rcases ih f with h' | h'
      · right; rw [h']; simp
      · right; simp [h']
    · rw [if_neg h]
      rcases ih g with h' | h'
      · left; exact h'
      · right; simp [h']

theorem max_from_le (l : List MonochromaticFlux) :
    ∀ g, g.time ≤ (max_from g l).time := by
  induction l with
  | nil => intro g; exact le_refl _
  | cons f rest ih =>
    intro g
    rw [max_from]
    by_cases h : f.time > g.time
    · rw [if_pos h]
      exact le_of_lt (lt_of_lt_of_le h (ih f))
    · rw [if_neg h]
      exact ih g

theorem max_from_ub (l : List MonochromaticFlux) :
    ∀ g f, f ∈ l → f.time ≤ (max_from g l).time := by
  induction l with
  | nil => intro g f hf; simp at hf
  | cons f0 rest ih =>
    intro g f hf
    rw [max_from]
    rcases List.mem_cons.mp hf with rfl | hf'
    · by_cases h : f.time > g.time
      · rw [if_pos h]; exact max_from_le rest f
      · rw [if_neg h]
        exact le_trans (le_of_not_lt h) (max_from_le rest g)
    · by_cases h : f0.time > g.time
      · rw [if_pos h]; exact ih f0 f hf'
      · rw [if_neg h]; exact ih g f hf'

theorem min_from_cases (l : List MonochromaticFlux) :
    ∀ g, min_from g l = g ∨ min_from g l ∈ l := by
  induction l with
  | nil => intro g; left; rfl
  | cons f rest ih =>
    intro g
    rw [min_from]
    by_cases h : f.time < g.time
    · rw [if_pos h]
      rcases ih f with h' | h'
      · right; rw [h']; simp
      · right; simp [h']
    · rw [if_neg h]
      rcases ih g with h' | h'
      · left; exact h'
      · right; simp [h']

theorem min_from_ge (l : List MonochromaticFlux) :
    ∀ g, (min_from g l).time ≤ g.time := by
  induction l with
  | nil => intro g; exact le_refl _
  | cons f rest ih =>
    intro g
    rw [min_from]
    by_cases h : f.time < g.time
    · rw [if_pos h]
      exact le_of_lt (lt_of_le_of_lt (ih f) h)
    · rw [if_neg h]
      exact ih g

theorem min_from_lb (l : List MonochromaticFlux) :
    ∀ g f, f ∈ l → (min_from g l).time ≤ f.time := by
  induction l with
  | nil => intro g f hf; simp at hf
  | cons f0 rest ih =>
    intro g f hf
    rw [min_from]
    rcases List.mem_cons.mp hf with rfl | hf'
    · by_cases h : f.time < g.time
      · rw [if_pos h]; exact min_from_ge rest f
      · rw [if_neg h]
        exact le_trans (min_from_ge rest g) (le_of_not_lt h)
    · by_cases h : f0.time < g.time
      · rw [if_pos h]; exact ih f0 f hf'
      · rw [if_neg h]; exact ih g f hf'

theorem max_by_time_spec (l : List MonochromaticFlux) (g : MonochromaticFlux)
    (h : max_by_time l = some g) : g ∈ l ∧ ∀ f ∈ l, f.time ≤ g.time := by
  cases l with
  | nil => simp [max_by_time] at h
  | cons f0 rest =>
    rw [max_by_time] at h
    have hg : g = max_from f0 rest := by
      have := Option.some_injective _ h
      exact this.symm
    subst hg
    constructor
    · rcases max_from_cases rest f0 with h' | h'
      · rw [h']; simp
      · simp [h']
    · intro f hf
      rcases List.mem_cons.mp hf with rfl | hf'
      · exact max_from_le rest f
      · exact max_from_ub rest f0 f hf'

theorem min_by_time_spec (l : List MonochromaticFlux) (g : MonochromaticFlux)
    (h : min_by_time l = some g) : g ∈ l ∧ ∀ f ∈ l, g.time ≤ f.time := by
  cases l with
  | nil => simp [min_by_time] at h
  | cons f0 rest =>
    rw [min_by_time] at h
    have hg : g = min_from f0 rest := by
      have := Option.some_injective _ h
      exact this.symm
    subst hg
    constructor
    · rcases min_from_cases rest f0 with h' | h'
      · rw [h']; simp
      · simp [h']
    · intro f hf
      rcases List.mem_cons.mp hf with rfl | hf'
      · exact min_from_ge rest f
      · exact min_from_lb rest f0 f hf'

theorem max_by_time_isSome (l : List MonochromaticFlux) (h : l ≠ []) :
    ∃ g, max_by_time l = some g := by
  cases l with
  | nil => exact absurd rfl h
  | cons f rest => exact ⟨max_from f rest, rfl⟩

theorem min_by_time_isSome (l : List MonochromaticFlux) (h : l ≠ []) :
    ∃ g, min_by_time l = some g := by
  cases l with
  | nil => exact absurd rfl h
  | cons f rest => exact ⟨min_from f rest, rfl⟩

/-- What `get_previous_flux` returns: a member of the lightcurve, strictly
earlier than `t`, and at least as late as every other strictly-earlier member. -/
theorem get_previous_flux_spec (lc : List MonochromaticFlux) (t : ℚ)
    (p : MonochromaticFlux) (h : get_previous_flux lc t = some p) :
    p ∈ lc ∧ p.time < t ∧ ∀ f ∈ lc, f.time < t → f.time ≤ p.time := by
  rw [get_previous_flux] at h
  have hspec := max_by_time_spec _ _ h
  have hmem := List.mem_filter.mp hspec.1
  have hpt : p.time < t := by
    have := hmem.2
    simp only [decide_eq_true_eq] at this
    linarith [this]
  refine ⟨hmem.1, hpt, ?_⟩
  intro f hf hft
  exact hspec.2 f (List.mem_filter.mpr ⟨hf, by simp only [decide_eq_true_eq]; linarith⟩)

/-- What `get_next_flux` returns. -/
theorem get_next_flux_spec (lc : List MonochromaticFlux) (t : ℚ)
    (n : MonochromaticFlux) (h : get_next_flux lc t = some n) :
    n ∈ lc ∧ t < n.time ∧ ∀ f ∈ lc, t < f.time → n.time ≤ f.time := by
  rw [get_next_flux] at h
  have hspec := min_by_time_spec _ _ h
  have hmem := List.mem_filter.mp hspec.1
  have hnt : t < n.time := by
    have := hmem.2
    simp only [decide_eq_true_eq] at this
    linarith [this]
  refine ⟨hmem.1, hnt, ?_⟩
  intro f hf hft
  exact hspec.2 f (List.mem_filter.mpr ⟨hf, by simp only [decide_eq_true_eq]; linarith⟩)

theorem get_previous_flux_exists (lc : List MonochromaticFlux) (t : ℚ)
    (f : MonochromaticFlux) (hf : f ∈ lc) (hft : f.time < t) :
    ∃ p, get_previous_flux lc t = some p := by
  rw [get_previous_flux]
  apply max_by_time_isSome
  intro hnil
  have : f ∈ lc.filter (fun flux => t - flux.time > 0) :=
    List.mem_filter.mpr ⟨hf, by simp only [decide_eq_true_eq]; linarith⟩
  rw [hnil] at this
  simp at this

theorem get_next_flux_exists (lc : List MonochromaticFlux) (t : ℚ)
    (f : MonochromaticFlux) (hf : f ∈ lc) (hft : t < f.time) :
    ∃ n, get_next_flux lc t = some n := by
  rw [get_next_flux]
  apply min_by_time_isSome
  intro hnil
  have : f ∈ lc.filter (fun flux => t - flux.time < 0) :=
    List.mem_filter.mpr ⟨hf, by simp only [decide_eq_true_eq]; linarith⟩
  rw [hnil] at this
  simp at this

/-! ## Membership lemmas for times, lightcurves and the sorted sets -/

theorem mem_get_times (fluxes : List MonochromaticFlux) (f : MonochromaticFlux)
    (hf : f ∈ fluxes) : f.time ∈ get_times fluxes := by
  simp only [get_times, List.mem_map]
  exact ⟨f, hf, rfl⟩

theorem get_times_mem (fluxes : List MonochromaticFlux) (t : ℚ)
    (ht : t ∈ get_times fluxes) : ∃ f ∈ fluxes, f.time = t := by
  simpa only [get_times, List.mem_map] using ht

theorem mem_get_monochromatic_lightcurve (SEDs : List (List MonochromaticFlux))
    (wl : ℚ) (f : MonochromaticFlux) :
    f ∈ get_monochromatic_lightcurve SEDs wl
      ↔ ∃ SED ∈ SEDs, f ∈ SED ∧ f.wavelength = wl := by
  simp only [get_monochromatic_lightcurve, List.mem_flatten, List.mem_map]
  constructor
  · rintro ⟨l, ⟨SED, hSED, rfl⟩, hfl⟩
    have := List.mem_filter.mp hfl
    refine ⟨SED, hSED, this.1, ?_⟩
    simpa using this.2
  · rintro ⟨SED, hSED, hf, hwl⟩
    exact ⟨SED.filter (fun f => f.wavelength == wl), ⟨SED, hSED, rfl⟩,
      List.mem_filter.mpr ⟨hf, by simpa using hwl⟩⟩

theorem lightcurve_wavelength (SEDs : List (List MonochromaticFlux)) (wl : ℚ)
    (f : MonochromaticFlux) (hf : f ∈ get_monochromatic_lightcurve SEDs wl) :
    f.wavelength = wl :=
  ((mem_get_monochromatic_lightcurve SEDs wl f).mp hf).choose_spec.2.2

theorem mem_get_unobserved_times (lc : List MonochromaticFlux) (ots : List ℚ) (t : ℚ) :
    t ∈ get_unobserved_times lc ots ↔ t ∈ ots ∧ t ∉ get_times lc := by
  simp [get_unobserved_times, List.mem_filter, List.elem_iff]

theorem mem_sorted_set (xs : List ℚ) (a : ℚ) : a ∈ sorted_set xs ↔ a ∈ xs := by
  rw [sorted_set]
  rw [(List.perm_insertionSort (fun a b => a ≤ b) xs.dedup).mem_iff]
  exact List.mem_dedup

theorem sorted_set_nodup (xs : List ℚ) : (sorted_set xs).Nodup := by
  rw [sorted_set]
  exact (List.perm_insertionSort (fun a b => a ≤ b) xs.dedup).nodup_iff.mpr xs.nodup_dedup

theorem sorted_set_congr (xs ys : List ℚ) (h : ∀ a, a ∈ xs ↔ a ∈ ys) :
    sorted_set xs = sorted_set ys := by
  have hperm : List.Perm xs.dedup ys.dedup := by
    apply List.perm_of_nodup_nodup_toFinset_eq xs.nodup_dedup ys.nodup_dedup
    ext a
    simp only [List.mem_toFinset, List.mem_dedup]
    exact h a
  haveI : IsAntisymm ℚ (fun a b : ℚ => a ≤ b) := ⟨fun a b h1 h2 => le_antisymm h1 h2⟩
  exact List.eq_of_perm_of_sorted
    (((List.perm_insertionSort (fun a b => a ≤ b) xs.dedup).trans hperm).trans
      (List.perm_insertionSort (fun a b => a ≤ b) ys.dedup).symm)
    (List.sorted_insertionSort (fun a b => a ≤ b) xs.dedup)
    (List.sorted_insertionSort (fun a b => a ≤ b) ys.dedup)

/-! ## Characterisation of the interpolation loop -/

theorem interpolate_unobserved_nil (lc : List MonochromaticFlux) :
    interpolate_unobserved lc [] = some [] := rfl

theorem interpolate_unobserved_cons (lc : List MonochromaticFlux) (t : ℚ) (ts : List ℚ) :
    interpolate_unobserved lc (t :: ts)
      = (get_previous_flux lc t).bind (fun previous_flux =>
          (get_next_flux lc t).bind (fun next_flux =>
            (interpolate_unobserved lc ts).bind (fun rest =>
              if next_flux.time - previous_flux.time ≤ 2 then
                some (interpolate_flux previous_flux next_flux t :: rest)
              else
                some rest))) := rfl

/-- Every produced flux comes from a bracketed unobserved time with gap at
most 2, and conversely. -/
theorem interpolate_unobserved_mem (lc : List MonochromaticFlux) :
    ∀ (ts : List ℚ) (fl : List MonochromaticFlux),
      interpolate_unobserved lc ts = some fl →
      ∀ φ : MonochromaticFlux,
        (φ ∈ fl ↔ ∃ t ∈ ts, ∃ p n, get_previous_flux lc t = some p
          ∧ get_next_flux lc t = some n ∧ n.time - p.time ≤ 2
          ∧ φ = interpolate_flux p n t) := by
  intro ts
  induction ts with
  | nil =>
    intro fl h φ
    rw [interpolate_unobserved_nil] at h
    cases h
    simp
  | cons t ts ih =>
    intro fl h φ
    rw [interpolate_unobserved_cons] at h
    cases hp : get_previous_flux lc t with
    | none => rw [hp] at h; simp at h
    | some p =>
      rw [hp] at h
      cases hn : get_next_flux lc t with
      | none => rw [hn] at h; simp at h
      | some n =>
        rw [hn] at h
        cases hr : interpolate_unobserved lc ts with
        | none => rw [hr] at h; simp at h
        | some rest =>
          rw [hr] at h
          simp only [Option.some_bind] at h
          by_cases hgap : n.time - p.time ≤ 2
          · rw [if_pos hgap] at h
            cases h
            constructor
            · intro hφ
              rcases List.mem_cons.mp hφ with rfl | hφ'
              · exact ⟨t, by simp, p, n, hp, hn, hgap, rfl⟩
              · obtain ⟨t', ht', p', n', hp', hn', hgap', hφeq⟩ := (ih rest hr φ).mp hφ'
                exact ⟨t', by simp [ht'], p', n', hp', hn', hgap', hφeq⟩
            · rintro ⟨t', ht', p', n', hp', hn', hgap', rfl⟩
              rcases List.mem_cons.mp ht' with rfl | ht''
              · rw [hp] at hp'
                rw [hn] at hn'
                cases hp'
                cases hn'
                exact List.mem_cons_self _ _
              · exact List.mem_cons_of_mem _
                  ((ih rest hr _).mpr ⟨t', ht'', p', n', hp', hn', hgap', rfl⟩)
          · rw [if_neg hgap] at h
            cases h
            constructor
            · intro hφ
              obtain ⟨t', ht', p', n', hp', hn', hgap', hφeq⟩ := (ih fl hr φ).mp hφ
              exact ⟨t', by simp [ht'], p', n', hp', hn', hgap', hφeq⟩
            · rintro ⟨t', ht', p', n', hp', hn', hgap', rfl⟩
              rcases List.mem_cons.mp ht' with rfl | ht''
              · rw [hp] at hp'
                rw [hn] at hn'
                cases hp'
                cases hn'
                exact absurd hgap' hgap
              · exact (ih fl hr _).mpr ⟨t', ht'', p', n', hp', hn', hgap', rfl⟩

/-- The loop completes iff every unobserved time has both neighbours. -/
theorem interpolate_unobserved_isSome (lc : List MonochromaticFlux) :
    ∀ (ts : List ℚ),
      (∀ t ∈ ts, (∃ p, get_previous_flux lc t = some p)
        ∧ ∃ n, get_next_flux lc t = some n) →
      ∃ fl, interpolate_unobserved lc ts = some fl := by
  intro ts
  induction ts with
  | nil => intro _; exact ⟨[], rfl⟩
  | cons t ts ih =>
    intro h
    obtain ⟨⟨p, hp⟩, ⟨n, hn⟩⟩ := h t (by simp)
    obtain ⟨rest, hrest⟩ := ih (fun t' ht' => h t' (by simp [ht']))
    rw [interpolate_unobserved_cons, hp, hn, hrest]
    by_cases hgap : n.time - p.time ≤ 2
    · refine ⟨interpolate_flux p n t :: rest, ?_⟩
      simp only [Option.some_bind]
      rw [if_pos hgap]
    · refine ⟨rest, ?_⟩
      simp only [Option.some_bind]
      rw [if_neg hgap]

/-- If the loop completed, every processed time had both neighbours. -/
theorem interpolate_unobserved_neighbors (lc : List MonochromaticFlux) :
    ∀ (ts : List ℚ) (fl : List MonochromaticFlux),
      interpolate_unobserved lc ts = some fl →
      ∀ t ∈ ts, (∃ p, get_previous_flux lc t = some p)
        ∧ ∃ n, get_next_flux lc t = some n := by
  intro ts
  induction ts with
  | nil => intro fl _ t ht; simp at ht
  | cons t ts ih =>
    intro fl h t' ht'
    rw [interpolate_unobserved_cons] at h
    cases hp : get_previous_flux lc t with
    | none => rw [hp] at h; simp at h
    | some p =>
      rw [hp] at h
      cases hn : get_next_flux lc t with
      | none => rw [hn] at h; simp at h
      | some n =>
        rw [hn] at h
        cases hr : interpolate_unobserved lc ts with
        | none => rw [hr] at h; simp at h
        | some rest =>
          rcases List.mem_cons.mp ht' with rfl | ht''
          · exact ⟨⟨p, hp⟩, ⟨n, hn⟩⟩
          · exact ih rest hr t' ht''

/-! ## Characterisation of the append step -/

theorem append_to_SED_nil_fluxes (SED : List MonochromaticFlux) :
    append_to_SED SED [] = some SED := rfl

theorem append_to_SED_nil_SED (fl : List MonochromaticFlux) (h : fl ≠ []) :
    append_to_SED [] fl = none := by
  cases fl with
  | nil => exact absurd rfl h
  | cons f fs => rfl

/-- Appending to a non-empty SED keeps it, extended by exactly the fluxes
whose time matches the head's time, in order. -/
theorem append_to_SED_cons :
    ∀ (fl SED : List MonochromaticFlux) (first : MonochromaticFlux) (rest : List MonochromaticFlux),
      SED = first :: rest →
      append_to_SED SED fl
        = some (SED ++ fl.filter (fun φ => φ.time == first.time)) := by
  intro fl
  induction fl with
  | nil =>
    intro SED first rest hSED
    rw [append_to_SED_nil_fluxes]
    simp
  | cons φ fl ih =>
    intro SED first rest hSED
    subst hSED
    rw [append_to_SED]
    simp only [List.head?_cons]
    by_cases hmatch : φ.time == first.time
    · rw [if_pos hmatch]
      rw [ih ((first :: rest) ++ [φ]) first (rest ++ [φ]) (by simp)]
      simp [List.filter_cons, hmatch]
    · rw [if_neg hmatch]
      rw [ih (first :: rest) first rest rfl]
      simp [List.filter_cons, hmatch]

/-- Fully characterise one successful per-SED append. -/
theorem append_to_SED_some (SED fl SED' : List MonochromaticFlux)
    (h : append_to_SED SED fl = some SED') :
    (SED = [] ∧ fl = [] ∧ SED' = []) ∨
      (∃ first rest, SED = first :: rest
        ∧ SED' = SED ++ fl.filter (fun φ => φ.time == first.time)) := by
  cases SED with
  | nil =>
    cases fl with
    | nil =>
      rw [append_to_SED_nil_fluxes] at h
      cases h
      exact Or.inl ⟨rfl, rfl, rfl⟩
    | cons φ fl =>
      rw [append_to_SED_nil_SED _ (by simp)] at h
      cases h
  | cons first rest =>
    rw [append_to_SED_cons fl (first :: rest) first rest rfl] at h
    cases h
    exact Or.inr ⟨first, rest, rfl, rfl⟩

/-- A successful append pairs old and new SEDs elementwise. -/
theorem append_SEDs_forall2 (fl : List MonochromaticFlux) :
    ∀ (SEDs SEDs' : List (List MonochromaticFlux)),
      append_interpolated_fluxes_to_SEDs fl SEDs = some SEDs' →
      List.Forall₂ (fun SED SED' => append_to_SED SED fl = some SED') SEDs SEDs' := by
  intro SEDs
  induction SEDs with
  | nil =>
    intro SEDs' h
    rw [append_interpolated_fluxes_to_SEDs] at h
    cases h
    exact List.Forall₂.nil
  | cons SED SEDs ih =>
    intro SEDs' h
    rw [append_interpolated_fluxes_to_SEDs] at h
    cases hS : append_to_SED SED fl with
    | none => rw [hS] at h; simp at h
    | some SED1 =>
      rw [hS] at h
      cases hR : append_interpolated_fluxes_to_SEDs fl SEDs with
      | none => rw [hR] at h; simp at h
      | some SEDs1 =>
        rw [hR] at h
        cases h
        exact List.Forall₂.cons hS (ih SEDs1 hR)

/-- If every per-SED append is a no-op, the whole append step is a no-op. -/
theorem append_SEDs_id (fl : List MonochromaticFlux) :
    ∀ (SEDs : List (List MonochromaticFlux)),
      (∀ SED ∈ SEDs, append_to_SED SED fl = some SED) →
      append_interpolated_fluxes_to_SEDs fl SEDs = some SEDs := by
  intro SEDs
  induction SEDs with
  | nil => intro _; rfl
  | cons SED SEDs ih =>
    intro h
    rw [append_interpolated_fluxes_to_SEDs]
    rw [h SED (by simp), ih (fun S hS => h S (by simp [hS]))]
    rfl

/-- `Forall₂` sends a member on the left to a related member on the right. -/
theorem forall2_mem_left {R : List MonochromaticFlux → List MonochromaticFlux → Prop} :
    ∀ {l₁ l₂ : List (List MonochromaticFlux)}, List.Forall₂ R l₁ l₂ →
      ∀ a ∈ l₁, ∃ b ∈ l₂, R a b := by
  intro l₁ l₂ h
  induction h with
  | nil => intro a ha; simp at ha
  | cons hR hrest ih =>
    intro a ha
    rcases List.mem_cons.mp ha with rfl | ha'
    · exact ⟨_, by simp, hR⟩
    · obtain ⟨b, hb, hRb⟩ := ih a ha'
      exact ⟨b, by simp [hb], hRb⟩

/-- `Forall₂` sends a member on the right to a related member on the left. -/
theorem forall2_mem_right {R : List MonochromaticFlux → List MonochromaticFlux → Prop} :
    ∀ {l₁ l₂ : List (List MonochromaticFlux)}, List.Forall₂ R l₁ l₂ →
      ∀ b ∈ l₂, ∃ a ∈ l₁, R a b := by
  intro l₁ l₂ h
  induction h with
  | nil => intro b hb; simp at hb
  | cons hR hrest ih =>
    intro b hb
    rcases List.mem_cons.mp hb with rfl | hb'
    · exact ⟨_, by simp, hR⟩
    · obtain ⟨a, ha, hRa⟩ := ih b hb'
      exact ⟨a, by simp [ha], hRa⟩

/-- If the append step succeeded with a non-empty flux list, every SED in the
collection was non-empty (Python would have raised `IndexError` otherwise). -/
theorem append_SEDs_nonempty (fl : List MonochromaticFlux) (hfl : fl ≠ [])
    (SEDs SEDs' : List (List MonochromaticFlux))
    (h : append_interpolated_fluxes_to_SEDs fl SEDs = some SEDs') :
    ∀ SED ∈ SEDs, SED ≠ [] := by
  intro SED hSED
  have h2 := append_SEDs_forall2 fl SEDs SEDs' h
  obtain ⟨SED', hSED', hap⟩ := forall2_mem_left h2 SED hSED
  rcases append_to_SED_some SED fl SED' hap with ⟨_, hflnil, _⟩ | ⟨first, rest, hcons, _⟩
  · exact absurd hflnil hfl
  · rw [hcons]; simp

/-! ## Claim C3: the interpolation policy -/

/-- C3: for a missing epoch `t` with bracketing fluxes `p` (largest time
below `t`) and `n` (smallest time above `t`), a flux is produced iff
`n.time - p.time ≤ 2`; a produced flux carries the linearly interpolated
value, wavelength `p.wavelength` and time `t`; when the gap exceeds 2 no
flux is produced for `t`. -/
theorem claim_C3_interpolation_policy (lc : List MonochromaticFlux) (ots : List ℚ)
    (t : ℚ) (p n : MonochromaticFlux) (fl : List MonochromaticFlux)
    (ht : t ∈ get_unobserved_times lc ots)
    (hp : get_previous_flux lc t = some p)
    (hn : get_next_flux lc t = some n)
    (hres : get_interpolated_fluxes lc ots = some fl) :
    (n.time - p.time ≤ 2 →
      ∃ φ ∈ fl, φ.time = t ∧ φ.wavelength = p.wavelength
        ∧ φ.flux = p.flux + ((t : ℝ) - (p.time : ℝ)) * (n.flux - p.flux)
            / ((n.time : ℝ) - (p.time : ℝ)))
      ∧ (¬ n.time - p.time ≤ 2 → ∀ φ ∈ fl, φ.time ≠ t) := by
  rw [get_interpolated_fluxes] at hres
  have hchar := interpolate_unobserved_mem lc _ fl hres
  constructor
  · intro hgap
    exact ⟨interpolate_flux p n t,
      (hchar _).mpr ⟨t, ht, p, n, hp, hn, hgap, rfl⟩, rfl, rfl, rfl⟩
  · intro hgap φ hφ
    obtain ⟨t', ht', p', n', hp', hn', hgap', rfl⟩ := (hchar φ).mp hφ
    intro htt
    have ht'' : t' = t := htt
    subst ht''
    rw [hp] at hp'
    rw [hn] at hn'
    cases hp'
    cases hn'
    exact hgap hgap'

theorem claim_C3_witness :
    ∃ φ ∈ [interpolate_flux ⟨10, 1, 7, 1⟩ ⟨20, 1, 7, 3⟩ 2],
      φ.time = 2 ∧ φ.wavelength = 7 ∧ φ.flux = 15 := by
  have h := (claim_C3_interpolation_policy [⟨10, 1, 7, 1⟩, ⟨20, 1, 7, 3⟩] [1, 2, 3] 2
      ⟨10, 1, 7, 1⟩ ⟨20, 1, 7, 3⟩ [interpolate_flux ⟨10, 1, 7, 1⟩ ⟨20, 1, 7, 3⟩ 2]
      (by decide) (by with_unfolding_all rfl) (by with_unfolding_all rfl)
      (by with_unfolding_all rfl)).1 (by norm_num)
  obtain ⟨φ, hφ, h1, h2, h3⟩ := h
  refine ⟨φ, hφ, h1, h2, ?_⟩
  rw [h3]
  push_cast
  norm_num

/-! ## Claim C10: the append step reads every SED's first element -/

/-- C10: with a non-empty interpolated-flux list, an empty SED in the
collection makes `append_interpolated_fluxes_to_SEDs` fail (the `SED[0]`
read is out of bounds) rather than being skipped; when every SED is
non-empty, each SED is extended by exactly those fluxes whose time equals
its first element's time. -/
theorem claim_C10_append_reads_first_elements (fl : List MonochromaticFlux)
    (SEDs : List (List MonochromaticFlux)) :
    (fl ≠ [] → [] ∈ SEDs → append_interpolated_fluxes_to_SEDs fl SEDs = none)
      ∧ ((∀ SED ∈ SEDs, SED ≠ []) →
          ∃ SEDs', append_interpolated_fluxes_to_SEDs fl SEDs = some SEDs'
            ∧ List.Forall₂ (fun SED SED' =>
                SED' = SED ++ fl.filter (fun φ => φ.time == SED.headI.time))
              SEDs SEDs') := by
  constructor
  · intro hfl
    induction SEDs with
    | nil => intro h; simp at h
    | cons SED SEDs ih =>
      intro hmem
      rw [append_interpolated_fluxes_to_SEDs]
      rcases List.mem_cons.mp hmem with rfl | hmem'
      · rw [append_to_SED_nil_SED fl hfl]
        rfl
      · rw [ih hmem']
        cases append_to_SED SED fl <;> rfl
  · intro hne
    induction SEDs with
    | nil => exact ⟨[], rfl, List.Forall₂.nil⟩
    | cons SED SEDs ih =>
      obtain ⟨first, rest, hcons⟩ := List.exists_cons_of_ne_nil (hne SED (by simp))
      obtain ⟨SEDs', hSEDs', hforall⟩ := ih (fun S hS => hne S (by simp [hS]))
      refine ⟨(SED ++ fl.filter (fun φ => φ.time == first.time)) :: SEDs', ?_, ?_⟩
      · rw [append_interpolated_fluxes_to_SEDs,
          append_to_SED_cons fl SED first rest hcons, hSEDs']
        rfl
      · refine List.Forall₂.cons ?_ hforall
        rw [hcons]
        simp

/-! ## Frame lemmas for the wavelength loop -/

theorem iow_nil (ots : List ℚ) (SEDs : List (List MonochromaticFlux)) :
    interpolate_over_wavelengths ots SEDs [] = some SEDs := rfl

theorem iow_cons (ots : List ℚ) (SEDs : List (List MonochromaticFlux))
    (wl : ℚ) (wls : List ℚ) :
    interpolate_over_wavelengths ots SEDs (wl :: wls)
      = (get_interpolated_fluxes (get_monochromatic_lightcurve SEDs wl) ots).bind
          (fun interpolated_fluxes =>
            (append_interpolated_fluxes_to_SEDs interpolated_fluxes SEDs).bind
              (fun SEDs' => interpolate_over_wavelengths ots SEDs' wls)) := rfl

theorem forall2_ext_refl (l : List (List MonochromaticFlux)) :
    List.Forall₂ (fun S S' => ∃ extra, S' = S ++ extra) l l := by
  induction l with
  | nil => exact List.Forall₂.nil
  | cons S l ih => exact List.Forall₂.cons ⟨[], by simp⟩ ih

theorem forall2_ext_trans {l₁ l₂ l₃ : List (List MonochromaticFlux)}
    (h₁ : List.Forall₂ (fun S S' => ∃ extra, S' = S ++ extra) l₁ l₂)
    (h₂ : List.Forall₂ (fun S S' => ∃ extra, S' = S ++ extra) l₂ l₃) :
    List.Forall₂ (fun S S' => ∃ extra, S' = S ++ extra) l₁ l₃ := by
  induction h₁ generalizing l₃ with
  | nil =>
    cases h₂
    exact List.Forall₂.nil
  | cons hR hrest ih =>
    cases h₂ with
    | cons hR' hrest' =>
      obtain ⟨e1, rfl⟩ := hR
      obtain ⟨e2, rfl⟩ := hR'
      exact List.Forall₂.cons ⟨e1 ++ e2, by simp⟩ (ih hrest')

/-- One append step only extends SEDs on the right. -/
theorem append_SEDs_ext (fl : List MonochromaticFlux)
    (SEDs SEDs' : List (List MonochromaticFlux))
    (h : append_interpolated_fluxes_to_SEDs fl SEDs = some SEDs') :
    List.Forall₂ (fun S S' => ∃ extra, S' = S ++ extra) SEDs SEDs' := by
  have h2 := append_SEDs_forall2 fl SEDs SEDs' h
  clear h
  induction h2 with
  | nil => exact List.Forall₂.nil
  | cons hR hrest ih =>
    refine List.Forall₂.cons ?_ ih
    rcases append_to_SED_some _ _ _ hR with ⟨rfl, _, rfl⟩ | ⟨first, rest, hcons, hext⟩
    · exact ⟨[], rfl⟩
    · exact ⟨_, hext⟩

/-- The whole wavelength loop only extends SEDs on the right. -/
theorem iow_ext (ots : List ℚ) :
    ∀ (wls : List ℚ) (SEDs SEDs' : List (List MonochromaticFlux)),
      interpolate_over_wavelengths ots SEDs wls = some SEDs' →
      List.Forall₂ (fun S S' => ∃ extra, S' = S ++ extra) SEDs SEDs' := by
  intro wls
  induction wls with
  | nil =>
    intro SEDs SEDs' h
    rw [iow_nil] at h
    cases h
    exact forall2_ext_refl _
  | cons wl wls ih =>
    intro SEDs SEDs' h
    rw [iow_cons] at h
    cases hfl : get_interpolated_fluxes (get_monochromatic_lightcurve SEDs wl) ots with
    | none => rw [hfl] at h; simp at h
    | some fl =>
      rw [hfl] at h
      try simp only [Option.some_bind] at h
      cases hap : append_interpolated_fluxes_to_SEDs fl SEDs with
      | none => rw [hap] at h; simp at h
      | some SEDs1 =>
        rw [hap] at h
        try simp only [Option.some_bind] at h
        exact forall2_ext_trans (append_SEDs_ext fl SEDs SEDs1 hap) (ih SEDs1 SEDs' h)

/-! ## Claim C9: interpolation only appends -/

/-- C9: when `interpolate_missing_fluxes` completes, the collection keeps
the same number of SEDs and each original SED is an unchanged prefix of the
corresponding output SED: nothing is removed, replaced or reordered. -/
theorem claim_C9_interpolation_only_appends
    (SEDs SEDs' : List (List MonochromaticFlux))
    (h : interpolate_missing_fluxes SEDs = some SEDs') :
    SEDs'.length = SEDs.length
      ∧ ∀ i (hi : i < SEDs.length) (hi' : i < SEDs'.length),
          ∃ extra, SEDs'.get ⟨i, hi'⟩ = SEDs.get ⟨i, hi⟩ ++ extra := by
  rw [interpolate_missing_fluxes] at h
  have hext := iow_ext (get_observed_times SEDs) (get_observed_wavelengths SEDs) SEDs SEDs' h
  refine ⟨hext.length_eq.symm, ?_⟩
  intro i hi hi'
  exact List.forall₂_iff_get.mp hext |>.2 i hi hi'

theorem claim_C9_witness :
    ∃ extra : List MonochromaticFlux,
      [(⟨1, 1, 3, 1⟩ : MonochromaticFlux)] = [⟨1, 1, 3, 1⟩] ++ extra := by
  have h := claim_C9_interpolation_only_appends [[⟨1, 1, 3, 1⟩]] [[⟨1, 1, 3, 1⟩]]
    (by with_unfolding_all rfl)
  exact h.2 0 (by simp) (by simp)

theorem claim_C10_witness :
    append_interpolated_fluxes_to_SEDs [⟨7, 1, 4, 2⟩] [[], [⟨1, 1, 3, 2⟩]] = none :=
  (claim_C10_append_reads_first_elements [⟨7, 1, 4, 2⟩] [[], [⟨1, 1, 3, 2⟩]]).1
    (by simp) (by simp)

/-! ## Claims C5 and C6: combining duplicates into an SED -/

/-- C5: `combine_fluxes` returns the inverse-variance weighted average as
flux, `1/sqrt(Σ weights)` as uncertainty, and the first input's wavelength
and time. -/
theorem claim_C5_combine_fluxes (fluxes : List MonochromaticFlux)
    (f : MonochromaticFlux) (rest : List MonochromaticFlux) (hf : fluxes = f :: rest)
    (hu : ∀ g ∈ fluxes, g.flux_uncertainty ≠ 0) :
    (combine_fluxes fluxes).flux
        = (fluxes.map (fun g => 1 / g.flux_uncertainty ^ 2 * g.flux)).sum
          / (fluxes.map (fun g => 1 / g.flux_uncertainty ^ 2)).sum
      ∧ (combine_fluxes fluxes).flux_uncertainty
          = 1 / Real.sqrt (fluxes.map (fun g => 1 / g.flux_uncertainty ^ 2)).sum
      ∧ (combine_fluxes fluxes).wavelength = f.wavelength
      ∧ (combine_fluxes fluxes).time = f.time := by
  subst hf
  refine ⟨?_, ?_, rfl, rfl⟩
  · show weighted_average (get_flux_values (f :: rest)) (get_flux_uncertainties (f :: rest)) = _
    have hlen : (get_flux_values (f :: rest)).length
        = (get_flux_uncertainties (f :: rest)).length := by
      simp [get_flux_values, get_flux_uncertainties]
    rw [weighted_average_eq_zip _ _ hlen, weights_zip_eq]
    rw [get_flux_values, get_flux_uncertainties, List.zip_map', List.map_map]
    rw [get_weights, List.map_map]
    rfl
  · show weighted_average_uncertainty (get_flux_uncertainties (f :: rest)) = _
    rw [weighted_average_uncertainty, get_weights, get_flux_uncertainties, List.map_map]
    rfl

theorem claim_C5_witness :
    (combine_fluxes [⟨10, 1, 5, 3⟩, ⟨20, 2, 5, 3⟩]).flux = 12
      ∧ (combine_fluxes [⟨10, 1, 5, 3⟩, ⟨20, 2, 5, 3⟩]).flux_uncertainty
          = 1 / Real.sqrt (5 / 4)
      ∧ (combine_fluxes [⟨10, 1, 5, 3⟩, ⟨20, 2, 5, 3⟩]).wavelength = 5
      ∧ (combine_fluxes [⟨10, 1, 5, 3⟩, ⟨20, 2, 5, 3⟩]).time = 3 := by
  have h := claim_C5_combine_fluxes [⟨10, 1, 5, 3⟩, ⟨20, 2, 5, 3⟩] ⟨10, 1, 5, 3⟩
    [⟨20, 2, 5, 3⟩] rfl
    (by intro g hg; simp at hg; rcases hg with rfl | rfl <;> norm_num)
  refine ⟨?_, ?_, h.2.2.1, h.2.2.2⟩
  · rw [h.1]
    simp only [List.map_cons, List.map_nil, List.sum_cons, List.sum_nil]
    norm_num
  · rw [h.2.1]
    simp only [List.map_cons, List.map_nil, List.sum_cons, List.sum_nil]
    norm_num

/-- On wavelength-distinct inputs `get_SED` is the identity. -/
theorem get_SED_nodup_eq :
    ∀ (fluxes : List MonochromaticFlux),
      (fluxes.map (fun f => f.wavelength)).Nodup → get_SED fluxes = fluxes := by
  intro fluxes
  induction fluxes with
  | nil => intro _; rfl
  | cons f rest ih =>
    intro h
    simp only [List.map_cons, List.nodup_cons] at h
    obtain ⟨hfw, hrest⟩ := h
    have hded : ((f :: rest).map (fun g => g.wavelength)).dedup
        = f.wavelength :: (rest.map (fun g => g.wavelength)).dedup := by
      simp only [List.map_cons]
      exact List.dedup_cons_of_not_mem hfw
    have hgroup : (f :: rest).filter (fun g => g.wavelength == f.wavelength) = [f] := by
      rw [List.filter_cons_of_pos (by simp)]
      rw [List.filter_eq_nil_iff.mpr ?_]
      intro g hg
      simp only [beq_iff_eq]
      intro he
      exact hfw (he ▸ List.mem_map_of_mem (fun g => g.wavelength) hg)
    have hothers : ∀ wl ∈ (rest.map (fun g => g.wavelength)).dedup,
        (f :: rest).filter (fun g => g.wavelength == wl)
          = rest.filter (fun g => g.wavelength == wl) := by
      intro wl hwl
      apply List.filter_cons_of_neg
      simp only [beq_iff_eq, decide_eq_true_eq]
      intro he
      exact hfw (he ▸ List.mem_dedup.mp hwl)
    rw [get_SED, yield_fluxes_at_each_observed_wavelength, hded, List.map_cons,
      List.map_cons, hgroup]
    have hmap : ((rest.map (fun g => g.wavelength)).dedup.map
          (fun wl => (f :: rest).filter (fun g => g.wavelength == wl)))
        = (rest.map (fun g => g.wavelength)).dedup.map
            (fun wl => rest.filter (fun g => g.wavelength == wl)) :=
      List.map_congr_left hothers
    rw [hmap]
    have htail : ((rest.map (fun g => g.wavelength)).dedup.map
          (fun wl => rest.filter (fun g => g.wavelength == wl))).map
            (fun l => if l.length = 1 then l.headI else combine_fluxes l)
        = get_SED rest := rfl
    rw [htail, ih hrest]
    rfl

/-- The wavelength of the SED entry built from the group at `wl` is `wl`. -/
theorem get_SED_entry_wavelength (fluxes : List MonochromaticFlux) (wl : ℚ)
    (hne : fluxes.filter (fun g => g.wavelength == wl) ≠ []) :
    (if (fluxes.filter (fun g => g.wavelength == wl)).length = 1
        then (fluxes.filter (fun g => g.wavelength == wl)).headI
        else combine_fluxes (fluxes.filter (fun g => g.wavelength == wl))).wavelength
      = wl := by
  obtain ⟨g, grp, hgrp⟩ := List.exists_cons_of_ne_nil hne
  have hgw : g.wavelength = wl := by
    have : g ∈ fluxes.filter (fun g => g.wavelength == wl) := by rw [hgrp]; simp
    simpa using (List.mem_filter.mp this).2
  by_cases hlen : (fluxes.filter (fun g => g.wavelength == wl)).length = 1
  · rw [if_pos hlen, hgrp]
    simpa using hgw
  · rw [if_neg hlen, combine_fluxes, hgrp]
    simpa using hgw

/-- C6: `get_SED` partitions by exact wavelength equality: on wavelength-
distinct inputs it keeps everything (same length, every original present);
every group with more than one member contributes `combine_fluxes` of that
group; and no two entries of the result share a wavelength. -/
theorem claim_C6_get_SED (fluxes : List MonochromaticFlux) :
    ((fluxes.map (fun f => f.wavelength)).Nodup →
        (get_SED fluxes).length = fluxes.length ∧ ∀ f ∈ fluxes, f ∈ get_SED fluxes)
      ∧ (∀ wl : ℚ, 1 < (fluxes.filter (fun f => f.wavelength == wl)).length →
          combine_fluxes (fluxes.filter (fun f => f.wavelength == wl)) ∈ get_SED fluxes)
      ∧ (get_SED fluxes).Pairwise (fun a b => a.wavelength ≠ b.wavelength) := by
  refine ⟨?_, ?_, ?_⟩
  · intro h
    rw [get_SED_nodup_eq fluxes h]
    exact ⟨rfl, fun f hf => hf⟩
  · intro wl hlen
    have hne : fluxes.filter (fun f => f.wavelength == wl) ≠ [] := by
      intro hnil
      rw [hnil] at hlen
      simp at hlen
    obtain ⟨g, grp, hgrp⟩ := List.exists_cons_of_ne_nil hne
    have hg : g ∈ fluxes.filter (fun f => f.wavelength == wl) := by rw [hgrp]; simp
    have hgmem := List.mem_filter.mp hg
    have hwl : wl ∈ (fluxes.map (fun f => f.wavelength)).dedup := by
      rw [List.mem_dedup]
      refine List.mem_map.mpr ⟨g, hgmem.1, ?_⟩
      simpa using hgmem.2
    rw [get_SED]
    apply List.mem_map.mpr
    refine ⟨fluxes.filter (fun f => f.wavelength == wl), ?_, ?_⟩
    · rw [yield_fluxes_at_each_observed_wavelength]
      exact List.mem_map.mpr ⟨wl, hwl, rfl⟩
    · rw [if_neg (by omega)]
  · rw [get_SED, yield_fluxes_at_each_observed_wavelength, List.map_map,
      List.pairwise_map]
    have hnd := (fluxes.map (fun f => f.wavelength)).nodup_dedup
    rw [List.Nodup] at hnd
    refine hnd.imp_of_mem ?_
    intro wl1 wl2 h1 h2 hne
    have e1 := get_SED_entry_wavelength fluxes wl1 ?ne1
    case ne1 =>
      intro hnil
      have : wl1 ∈ fluxes.map (fun f => f.wavelength) := List.mem_dedup.mp h1
      obtain ⟨g, hgmem, hgw⟩ := List.mem_map.mp this
      have : g ∈ fluxes.filter (fun f => f.wavelength == wl1) :=
        List.mem_filter.mpr ⟨hgmem, by simpa using hgw⟩
      rw [hnil] at this
      simp at this
    have e2 := get_SED_entry_wavelength fluxes wl2 ?ne2
    case ne2 =>
      intro hnil
      have : wl2 ∈ fluxes.map (fun f => f.wavelength) := List.mem_dedup.mp h2
      obtain ⟨g, hgmem, hgw⟩ := List.mem_map.mp this
      have : g ∈ fluxes.filter (fun f => f.wavelength == wl2) :=
        List.mem_filter.mpr ⟨hgmem, by simpa using hgw⟩
      rw [hnil] at this
      simp at this
    simp only [Function.comp]
    intro hcontra
    exact hne (by rw [← e1, ← e2, hcontra])

theorem claim_C6_witness :
    (get_SED [(⟨1, 1, 3, 1⟩ : MonochromaticFlux), ⟨2, 1, 4, 1⟩]).length = 2 :=
  ((claim_C6_get_SED [⟨1, 1, 3, 1⟩, ⟨2, 1, 4, 1⟩]).1 (by decide)).1

/-! ## Claim C7: idempotence of `interpolate_missing_fluxes` -/

theorem interpolate_flux_time (p n : MonochromaticFlux) (t : ℚ) :
    (interpolate_flux p n t).time = t := rfl

theorem interpolate_flux_wavelength (p n : MonochromaticFlux) (t : ℚ) :
    (interpolate_flux p n t).wavelength = p.wavelength := rfl

/-- Every flux produced against `lc1` sits at an epoch that was unobserved in
`lc1`, and carries the wavelength of the lightcurve's fluxes. -/
theorem interpolated_fluxes_props (lc1 : List MonochromaticFlux) (ots : List ℚ)
    (fl1 : List MonochromaticFlux)
    (hfl1 : interpolate_unobserved lc1 (get_unobserved_times lc1 ots) = some fl1) :
    ∀ φ ∈ fl1, φ.time ∈ ots ∧ φ.time ∉ get_times lc1
      ∧ ∃ p ∈ lc1, φ.wavelength = p.wavelength := by
  intro φ hφ
  obtain ⟨t, ht, p, n, hp, hn, hgap, rfl⟩ :=
    (interpolate_unobserved_mem lc1 _ fl1 hfl1 φ).mp hφ
  obtain ⟨hto, htn⟩ := (mem_get_unobserved_times lc1 ots t).mp ht
  rw [interpolate_flux_time, interpolate_flux_wavelength]
  exact ⟨hto, htn, p, (get_previous_flux_spec lc1 t p hp).1, rfl⟩

/-- KEY LEMMA.  Suppose the first pass over lightcurve `lc1` produced `fl1`,
and `lc2` extends `lc1` only by fluxes from `fl1`.  If an epoch `t` is still
unobserved in `lc2` and its bracketing gap in `lc2` is at most 2, then the
first pass already produced a flux at time `t`.  (New points only subdivide
small gaps: any produced epoch strictly inside an old gap would have had that
same gap as its own bracketing gap.) -/
theorem cert_production (ots : List ℚ) (lc1 lc2 fl1 : List MonochromaticFlux)
    (hfl1 : interpolate_unobserved lc1 (get_unobserved_times lc1 ots) = some fl1)
    (hup : ∀ f ∈ lc1, f ∈ lc2)
    (hchar : ∀ f ∈ lc2, f ∈ lc1 ∨ f ∈ fl1)
    (t : ℚ) (hto : t ∈ ots) (ht2 : t ∉ get_times lc2)
    (p2 n2 : MonochromaticFlux)
    (hp2 : get_previous_flux lc2 t = some p2)
    (hn2 : get_next_flux lc2 t = some n2)
    (hgap2 : n2.time - p2.time ≤ 2) :
    ∃ φ ∈ fl1, φ.time = t := by
  have ht1 : t ∉ get_times lc1 := by
    intro hmem
    obtain ⟨f, hf, hft⟩ := get_times_mem lc1 t hmem
    apply ht2
    rw [← hft]
    exact mem_get_times lc2 f (hup f hf)
  have htu1 : t ∈ get_unobserved_times lc1 ots :=
    (mem_get_unobserved_times lc1 ots t).mpr ⟨hto, ht1⟩
  obtain ⟨⟨p1, hp1⟩, ⟨n1, hn1⟩⟩ :=
    interpolate_unobserved_neighbors lc1 _ fl1 hfl1 t htu1
  have hp1s := get_previous_flux_spec lc1 t p1 hp1
  have hn1s := get_next_flux_spec lc1 t n1 hn1
  have hp2s := get_previous_flux_spec lc2 t p2 hp2
  have hn2s := get_next_flux_spec lc2 t n2 hn2
  have hchar1 := interpolate_unobserved_mem lc1 _ fl1 hfl1
  have hgap1 : n1.time - p1.time ≤ 2 := by
    by_contra hgap1
    have hple : p1.time ≤ p2.time := hp2s.2.2 p1 (hup p1 hp1s.1) hp1s.2.1
    have hpe : p2.time = p1.time := by
      rcases hchar p2 hp2s.1 with hmem | hmem
      · exact le_antisymm (hp1s.2.2 p2 hmem hp2s.2.1) hple
      · exfalso
        obtain ⟨t', ht', p', n', hp', hn', hgap', rfl⟩ := (hchar1 p2).mp hmem
        rw [interpolate_flux_time] at hp2s hple
        obtain ⟨ht'o, ht'n⟩ := (mem_get_unobserved_times lc1 ots t').mp ht'
        have ht't : t' < t := hp2s.2.1
        have hp1t' : p1.time < t' := by
          rcases lt_or_eq_of_le hple with h | h
          · exact h
          · exact absurd (h ▸ mem_get_times lc1 p1 hp1s.1) ht'n
        have hp's := get_previous_flux_spec lc1 t' p' hp'
        have hn's := get_next_flux_spec lc1 t' n' hn'
        have hp'e : p'.time = p1.time :=
          le_antisymm (hp1s.2.2 p' hp's.1 (lt_trans hp's.2.1 ht't))
            (hp's.2.2 p1 hp1s.1 hp1t')
        have hn'gt : t < n'.time := by
          rcases lt_trichotomy n'.time t with h | h | h
          · exfalso
            have h1 : n'.time ≤ p1.time := hp1s.2.2 n' hn's.1 h
            have h2 : t' < n'.time := hn's.2.1
            linarith
          · exact absurd (h ▸ mem_get_times lc1 n' hn's.1) ht1
          · exact h
        have hn'e : n'.time = n1.time :=
          le_antisymm (hn's.2.2 n1 hn1s.1 (lt_trans ht't hn1s.2.1))
            (hn1s.2.2 n' hn's.1 hn'gt)
        rw [hp'e, hn'e] at hgap'
        exact hgap1 hgap'
    have hnge : n2.time ≤ n1.time := hn2s.2.2 n1 (hup n1 hn1s.1) hn1s.2.1
    have hne : n2.time = n1.time := by
      rcases hchar n2 hn2s.1 with hmem | hmem
      · exact le_antisymm hnge (hn1s.2.2 n2 hmem hn2s.2.1)
      · exfalso
        obtain ⟨t'', ht'', p'', n'', hp'', hn'', hgap'', rfl⟩ := (hchar1 n2).mp hmem
        rw [interpolate_flux_time] at hn2s hnge
        obtain ⟨ht''o, ht''n⟩ := (mem_get_unobserved_times lc1 ots t'').mp ht''
        have htt'' : t < t'' := hn2s.2.1
        have ht''n1 : t'' < n1.time := by
          rcases lt_or_eq_of_le hnge with h | h
          · exact h
          · exact absurd (h ▸ mem_get_times lc1 n1 hn1s.1) ht''n
        have hp''s := get_previous_flux_spec lc1 t'' p'' hp''
        have hn''s := get_next_flux_spec lc1 t'' n'' hn''
        have hp''lt : p''.time < t := by
          rcases lt_trichotomy p''.time t with h | h | h
          · exact h
          · exact absurd (h ▸ mem_get_times lc1 p'' hp''s.1) ht1
          · exfalso
            have h1 : n1.time ≤ p''.time := hn1s.2.2 p'' hp''s.1 h
            have h2 : p''.time < t'' := hp''s.2.1
            linarith
        have hp''e : p''.time = p1.time :=
          le_antisymm (hp1s.2.2 p'' hp''s.1 hp''lt)
            (hp''s.2.2 p1 hp1s.1 (lt_trans hp1s.2.1 htt''))
        have hn''e : n''.time = n1.time :=
          le_antisymm (hn''s.2.2 n1 hn1s.1 ht''n1)
            (hn1s.2.2 n'' hn''s.1 (lt_trans htt'' hn''s.2.1))
        rw [hp''e, hn''e] at hgap''
        exact hgap1 hgap''
    rw [hpe, hne] at hgap2
    exact hgap1 hgap2
  exact ⟨interpolate_flux p1 n1 t,
    (hchar1 _).mpr ⟨t, htu1, p1, n1, hp1, hn1, hgap1, rfl⟩, rfl⟩

/-- What the first pass certifies, at its final state `S`, about the
processing of wavelength `wl`: the lightcurve `lc1` it interpolated against
and the fluxes `fl1` it produced, such that the current lightcurve of `wl`
extends `lc1` only by members of `fl1`, every produced flux whose time
matches some SED head was actually retained, and a non-trivial production
forces every SED non-empty. -/
def wavelength_cert (ots : List ℚ) (S : List (List MonochromaticFlux)) (wl : ℚ) : Prop :=
  ∃ lc1 fl1 : List MonochromaticFlux,
    interpolate_unobserved lc1 (get_unobserved_times lc1 ots) = some fl1
    ∧ (∀ f ∈ lc1, f ∈ get_monochromatic_lightcurve S wl)
    ∧ (∀ f ∈ get_monochromatic_lightcurve S wl, f ∈ lc1 ∨ f ∈ fl1)
    ∧ (∀ φ ∈ fl1, ∀ SED ∈ S, ∀ first, SED.head? = some first →
        φ.time = first.time → φ ∈ get_monochromatic_lightcurve S wl)
    ∧ (fl1 ≠ [] → ∀ SED ∈ S, SED ≠ [])

/-- A certified wavelength is saturated: re-running its step produces fluxes
that are appended nowhere, leaving the collection unchanged. -/
theorem cert_saturated (ots : List ℚ) (S : List (List MonochromaticFlux)) (wl : ℚ)
    (hcert : wavelength_cert ots S wl) :
    ∃ fl2, get_interpolated_fluxes (get_monochromatic_lightcurve S wl) ots = some fl2
      ∧ append_interpolated_fluxes_to_SEDs fl2 S = some S := by
  obtain ⟨lc1, fl1, hfl1, hup, hchar, hmatch, hnonempty⟩ := hcert
  have hex : ∀ t ∈ get_unobserved_times (get_monochromatic_lightcurve S wl) ots,
      (∃ p, get_previous_flux (get_monochromatic_lightcurve S wl) t = some p)
        ∧ ∃ n, get_next_flux (get_monochromatic_lightcurve S wl) t = some n := by
    intro t ht
    obtain ⟨hto, htn⟩ := (mem_get_unobserved_times _ ots t).mp ht
    have ht1 : t ∉ get_times lc1 := by
      intro hmem
      obtain ⟨f, hf, hft⟩ := get_times_mem lc1 t hmem
      apply htn
      rw [← hft]
      exact mem_get_times _ f (hup f hf)
    have htu1 : t ∈ get_unobserved_times lc1 ots :=
      (mem_get_unobserved_times lc1 ots t).mpr ⟨hto, ht1⟩
    obtain ⟨⟨p1, hp1⟩, ⟨n1, hn1⟩⟩ :=
      interpolate_unobserved_neighbors lc1 _ fl1 hfl1 t htu1
    have hp1s := get_previous_flux_spec lc1 t p1 hp1
    have hn1s := get_next_flux_spec lc1 t n1 hn1
    exact ⟨get_previous_flux_exists _ t p1 (hup p1 hp1s.1) hp1s.2.1,
      get_next_flux_exists _ t n1 (hup n1 hn1s.1) hn1s.2.1⟩
  obtain ⟨fl2, hfl2⟩ := interpolate_unobserved_isSome (get_monochromatic_lightcurve S wl) _ hex
  have hkey : ∀ φ2 ∈ fl2, φ2.time ∉ get_times (get_monochromatic_lightcurve S wl)
      ∧ ∃ φ1 ∈ fl1, φ1.time = φ2.time := by
    intro φ2 hφ2
    obtain ⟨t, ht, p2, n2, hp2, hn2, hgap2, rfl⟩ :=
      (interpolate_unobserved_mem _ _ fl2 hfl2 φ2).mp hφ2
    obtain ⟨hto, htn⟩ := (mem_get_unobserved_times _ ots t).mp ht
    rw [interpolate_flux_time]
    exact ⟨htn, cert_production ots lc1 _ fl1 hfl1 hup hchar t hto htn p2 n2 hp2 hn2 hgap2⟩
  refine ⟨fl2, hfl2, ?_⟩
  apply append_SEDs_id
  intro SED hSED
  cases hS : SED with
  | nil =>
    have hfl2nil : fl2 = [] := by
      cases hfl2' : fl2 with
      | nil => rfl
      | cons φ2 rest =>
        exfalso
        obtain ⟨_, φ1, hφ1, _⟩ := hkey φ2 (by rw [hfl2']; simp)
        have := hnonempty (by intro h; rw [h] at hφ1; simp at hφ1) SED hSED
        exact this hS
    rw [hfl2nil]
    exact append_to_SED_nil_fluxes []
  | cons first rest =>
    subst hS
    rw [append_to_SED_cons fl2 (first :: rest) first rest rfl]
    have hfilter : fl2.filter (fun φ => φ.time == first.time) = [] := by
      rw [List.filter_eq_nil_iff]
      intro φ2 hφ2
      simp only [beq_iff_eq]
      intro he
      obtain ⟨htn, φ1, hφ1, hte⟩ := hkey φ2 hφ2
      apply htn
      have hφ1lc : φ1 ∈ get_monochromatic_lightcurve S wl := by
        apply hmatch φ1 hφ1 (first :: rest) hSED first
        · rfl
        · rw [hte, he]
      rw [← hte]
      exact mem_get_times _ φ1 hφ1lc
    rw [hfilter]
    simp

/-- If every wavelength in the list is certified at `S`, the whole loop is
the identity on `S`. -/
theorem iow_saturated (ots : List ℚ) :
    ∀ (wls : List ℚ) (S : List (List MonochromaticFlux)),
      (∀ wl ∈ wls, wavelength_cert ots S wl) →
      interpolate_over_wavelengths ots S wls = some S := by
  intro wls
  induction wls with
  | nil => intro S _; rfl
  | cons wl wls ih =>
    intro S h
    obtain ⟨fl2, hfl2, hap⟩ := cert_saturated ots S wl (h wl (by simp))
    rw [iow_cons, hfl2]
    simp only [Option.some_bind]
    rw [hap]
    simp only [Option.some_bind]
    exact ih S (fun w hw => h w (by simp [hw]))

/-- The relation between a SED before and after some wavelength steps:
extended on the right by fluxes whose wavelengths lie in `wls` and whose
times are observed; an empty SED stays empty. -/
def sed_ext (ots wls : List ℚ) (SED SED' : List MonochromaticFlux) : Prop :=
  ∃ extra, SED' = SED ++ extra ∧ (SED = [] → extra = [])
    ∧ ∀ φ ∈ extra, φ.wavelength ∈ wls ∧ φ.time ∈ ots

theorem sed_ext_refl (ots wls : List ℚ) (l : List (List MonochromaticFlux)) :
    List.Forall₂ (sed_ext ots wls) l l := by
  induction l with
  | nil => exact List.Forall₂.nil
  | cons S l ih => exact List.Forall₂.cons ⟨[], by simp, fun _ => rfl, by simp⟩ ih

theorem sed_ext_trans {ots wls : List ℚ} :
    ∀ {l₁ l₂ l₃ : List (List MonochromaticFlux)},
      List.Forall₂ (sed_ext ots wls) l₁ l₂ → List.Forall₂ (sed_ext ots wls) l₂ l₃ →
      List.Forall₂ (sed_ext ots wls) l₁ l₃ := by
  intro l₁ l₂ l₃ h₁
  induction h₁ generalizing l₃ with
  | nil =>
    intro h₂
    cases h₂
    exact List.Forall₂.nil
  | cons hR hrest ih =>
    intro h₂
    cases h₂ with
    | cons hR' hrest' =>
      obtain ⟨e1, rfl, hemp1, hprop1⟩ := hR
      obtain ⟨e2, rfl, hemp2, hprop2⟩ := hR'
      refine List.Forall₂.cons ⟨e1 ++ e2, by simp, ?_, ?_⟩ (ih hrest')
      · intro hnil
        have he1 := hemp1 hnil
        have he2 := hemp2 (by rw [hnil, he1]; rfl)
        rw [he1, he2]
        rfl
      · intro φ hφ
        rcases List.mem_append.mp hφ with h | h
        · exact hprop1 φ h
        · exact hprop2 φ h

theorem sed_ext_mono {ots wls wls' : List ℚ} (hsub : ∀ a ∈ wls, a ∈ wls') :
    ∀ {l₁ l₂ : List (List MonochromaticFlux)},
      List.Forall₂ (sed_ext ots wls) l₁ l₂ → List.Forall₂ (sed_ext ots wls') l₁ l₂ := by
  intro l₁ l₂ h
  induction h with
  | nil => exact List.Forall₂.nil
  | cons hR hrest ih =>
    obtain ⟨e, rfl, hemp, hprop⟩ := hR
    exact List.Forall₂.cons
      ⟨e, rfl, hemp, fun φ hφ => ⟨hsub _ (hprop φ hφ).1, (hprop φ hφ).2⟩⟩ ih

/-- One append step realises `sed_ext` when the appended fluxes' wavelengths
and times are suitably constrained. -/
theorem step_sed_ext (ots wls : List ℚ) (fl1 : List MonochromaticFlux)
    (hprops : ∀ φ ∈ fl1, φ.wavelength ∈ wls ∧ φ.time ∈ ots) :
    ∀ {S S1 : List (List MonochromaticFlux)},
      List.Forall₂ (fun SED SED1 => append_to_SED SED fl1 = some SED1) S S1 →
      List.Forall₂ (sed_ext ots wls) S S1 := by
  intro S S1 h
  induction h with
  | nil => exact List.Forall₂.nil
  | cons hR hrest ih =>
    refine List.Forall₂.cons ?_ ih
    rcases append_to_SED_some _ _ _ hR with ⟨rfl, hfl, rfl⟩ | ⟨first, rest, hcons, hext⟩
    · exact ⟨[], rfl, fun _ => rfl, by simp⟩
    · refine ⟨_, hext, ?_, ?_⟩
      · intro hnil
        rw [hnil] at hcons
        cases hcons
      · intro φ hφ
        exact hprops φ (List.mem_filter.mp hφ).1

theorem lcw_cons (SED : List MonochromaticFlux) (S : List (List MonochromaticFlux))
    (wl : ℚ) :
    get_monochromatic_lightcurve (SED :: S) wl
      = SED.filter (fun f => f.wavelength == wl) ++ get_monochromatic_lightcurve S wl := by
  rw [get_monochromatic_lightcurve, List.map_cons, List.flatten_cons]
  rfl

/-- Steps at other wavelengths do not touch a wavelength's lightcurve. -/
theorem lcw_ext_other {ots wls : List ℚ} (wl : ℚ) (hwl : wl ∉ wls) :
    ∀ {S S' : List (List MonochromaticFlux)},
      List.Forall₂ (sed_ext ots wls) S S' →
      get_monochromatic_lightcurve S' wl = get_monochromatic_lightcurve S wl := by
  intro S S' h
  induction h with
  | nil => rfl
  | cons hR hrest ih =>
    obtain ⟨e, rfl, hemp, hprop⟩ := hR
    rw [lcw_cons, lcw_cons, ih, List.filter_append]
    have he : e.filter (fun f => f.wavelength == wl) = [] := by
      rw [List.filter_eq_nil_iff]
      intro φ hφ
      simp only [beq_iff_eq]
      intro hfw
      exact hwl (hfw ▸ (hprop φ hφ).1)
    rw [he]
    simp

/-- The first pass leaves behind, for every processed wavelength, a
certificate valid at the final state, and only extends the SEDs. -/
theorem iow_post (ots : List ℚ) :
    ∀ (wls : List ℚ) (S S' : List (List MonochromaticFlux)),
      wls.Nodup →
      interpolate_over_wavelengths ots S wls = some S' →
      List.Forall₂ (sed_ext ots wls) S S'
        ∧ ∀ wl ∈ wls, wavelength_cert ots S' wl := by
  intro wls
  induction wls with
  | nil =>
    intro S S' _ h
    rw [iow_nil] at h
    cases h
    exact ⟨sed_ext_refl ots [] S, by simp⟩
  | cons wl wls ih =>
    intro S S' hnd h
    have hwlnot : wl ∉ wls := (List.nodup_cons.mp hnd).1
    rw [iow_cons] at h
    cases hfl : get_interpolated_fluxes (get_monochromatic_lightcurve S wl) ots with
    | none => rw [hfl] at h; simp at h
    | some fl1 =>
      rw [hfl] at h
      try simp only [Option.some_bind] at h
      cases hap : append_interpolated_fluxes_to_SEDs fl1 S with
      | none => rw [hap] at h; simp at h
      | some S1 =>
        rw [hap] at h
        try simp only [Option.some_bind] at h
        obtain ⟨hext', hcerts'⟩ := ih S1 S' (List.nodup_cons.mp hnd).2 h
        rw [get_interpolated_fluxes] at hfl
        have hstep := append_SEDs_forall2 fl1 S S1 hap
        have hprops := interpolated_fluxes_props (get_monochromatic_lightcurve S wl) ots fl1 hfl
        have hfl1wl : ∀ φ ∈ fl1, φ.wavelength = wl := by
          intro φ hφ
          obtain ⟨_, _, p, hp, he⟩ := hprops φ hφ
          rw [he]
          exact lightcurve_wavelength S wl p hp
        have hext1 : List.Forall₂ (sed_ext ots (wl :: wls)) S S1 :=
          step_sed_ext ots (wl :: wls) fl1
            (fun φ hφ => ⟨by rw [hfl1wl φ hφ]; simp, (hprops φ hφ).1⟩) hstep
        have hext2 : List.Forall₂ (sed_ext ots (wl :: wls)) S1 S' :=
          sed_ext_mono (fun a ha => by simp [ha]) hext'
        have hlc_eq : get_monochromatic_lightcurve S' wl
            = get_monochromatic_lightcurve S1 wl := lcw_ext_other wl hwlnot hext'
        refine ⟨sed_ext_trans hext1 hext2, ?_⟩
        intro w hw
        rcases List.mem_cons.mp hw with rfl | hw'
        · refine ⟨get_monochromatic_lightcurve S w, fl1, hfl, ?_, ?_, ?_, ?_⟩
          · -- every old lightcurve member survives
            intro f hf
            rw [hlc_eq]
            obtain ⟨SED, hSED, hfS, hfw⟩ := (mem_get_monochromatic_lightcurve S w f).mp hf
            obtain ⟨SED1, hSED1, hap1⟩ := forall2_mem_left hstep SED hSED
            rcases append_to_SED_some _ _ _ hap1 with ⟨rfl, _, rfl⟩ | ⟨fi, re, hcons, hext⟩
            · simp at hfS
            · exact (mem_get_monochromatic_lightcurve S1 w f).mpr
                ⟨SED1, hSED1, by rw [hext]; exact List.mem_append_left _ hfS, hfw⟩
          · -- every new lightcurve member is old or produced
            intro f hf
            rw [hlc_eq] at hf
            obtain ⟨SED1, hSED1, hfS1, hfw⟩ := (mem_get_monochromatic_lightcurve S1 w f).mp hf
            obtain ⟨SED, hSED, hap1⟩ := forall2_mem_right hstep SED1 hSED1
            rcases append_to_SED_some _ _ _ hap1 with ⟨rfl, _, rfl⟩ | ⟨fi, re, hcons, hext⟩
            · simp at hfS1
            · rw [hext] at hfS1
              rcases List.mem_append.mp hfS1 with hmem | hmem
              · exact Or.inl ((mem_get_monochromatic_lightcurve S w f).mpr ⟨SED, hSED, hmem, hfw⟩)
              · exact Or.inr (List.mem_filter.mp hmem).1
          · -- produced fluxes whose time matches a head were retained
            intro φ hφ SED' hSED' first hfirst hte
            rw [hlc_eq]
            obtain ⟨SED1, hSED1, e2, he2, hemp2, _⟩ := forall2_mem_right hext' SED' hSED'
            cases hS1 : SED1 with
            | nil =>
              rw [hS1] at hemp2
              rw [he2, hS1, hemp2 rfl] at hfirst
              cases hfirst
            | cons c cs =>
              have hfc : first = c := by
                rw [he2, hS1] at hfirst
                simp at hfirst
                exact hfirst.symm
              obtain ⟨SED0, hSED0, hap1⟩ := forall2_mem_right hstep SED1 hSED1
              rcases append_to_SED_some _ _ _ hap1 with ⟨_, _, hnil⟩ | ⟨f0, r0, hcons0, hext0⟩
              · rw [hS1] at hnil
                cases hnil
              · have h1 := hext0
                rw [hS1, hcons0] at h1
                have hcf0 : c = f0 := by
                  simpa using congrArg (fun l => l.headI) h1
                have hφmem : φ ∈ SED1 := by
                  rw [hext0]
                  apply List.mem_append_right
                  apply List.mem_filter.mpr
                  refine ⟨hφ, ?_⟩
                  simp only [beq_iff_eq]
                  rw [hte, hfc, hcf0]
                exact (mem_get_monochromatic_lightcurve S1 w φ).mpr
                  ⟨SED1, hSED1, hφmem, hfl1wl φ hφ⟩
          · -- non-trivial production forces all SEDs non-empty
            intro hne SED' hSED'
            have hne0 := append_SEDs_nonempty fl1 hne S S1 hap
            obtain ⟨SED1, hSED1, e2, he2, _, _⟩ := forall2_mem_right hext' SED' hSED'
            obtain ⟨SED0, hSED0, hap1⟩ := forall2_mem_right hstep SED1 hSED1
            rcases append_to_SED_some _ _ _ hap1 with ⟨hnil0, _, _⟩ | ⟨f0, r0, hcons0, hext0⟩
            · exact absurd hnil0 (hne0 SED0 hSED0)
            · rw [he2, hext0, hcons0]
              simp
        · exact hcerts' w hw'

/-- The appended fluxes introduce no new wavelength. -/
theorem observed_wavelengths_eq (S S' : List (List MonochromaticFlux))
    (hext : List.Forall₂
      (sed_ext (get_observed_times S) (get_observed_wavelengths S)) S S') :
    get_observed_wavelengths S' = get_observed_wavelengths S := by
  rw [get_observed_wavelengths, get_observed_wavelengths]
  apply sorted_set_congr
  intro a
  constructor
  · intro ha
    simp only [List.mem_flatten, List.mem_map] at ha
    obtain ⟨l, ⟨SED', hSED', rfl⟩, haf⟩ := ha
    obtain ⟨f, hf, rfl⟩ := List.mem_map.mp haf
    obtain ⟨SED, hSED, e, he, _, hprop⟩ := forall2_mem_right hext SED' hSED'
    rw [he] at hf
    rcases List.mem_append.mp hf with hmem | hmem
    · simp only [List.mem_flatten, List.mem_map]
      exact ⟨SED.map (fun f => f.wavelength), ⟨SED, hSED, rfl⟩,
        List.mem_map_of_mem _ hmem⟩
    · have hm := (hprop f hmem).1
      rw [get_observed_wavelengths] at hm
      exact (mem_sorted_set _ _).mp hm
  · intro ha
    simp only [List.mem_flatten, List.mem_map] at ha ⊢
    obtain ⟨l, ⟨SED, hSED, rfl⟩, haf⟩ := ha
    obtain ⟨SED', hSED', e, he, _, _⟩ := forall2_mem_left hext SED hSED
    obtain ⟨f, hf, rfl⟩ := List.mem_map.mp haf
    exact ⟨SED'.map (fun f => f.wavelength), ⟨SED', hSED', rfl⟩,
      List.mem_map_of_mem _ (by rw [he]; exact List.mem_append_left _ hf)⟩

/-- The appended fluxes introduce no new epoch. -/
theorem observed_times_eq (wls : List ℚ) (S S' : List (List MonochromaticFlux))
    (hext : List.Forall₂ (sed_ext (get_observed_times S) wls) S S') :
    get_observed_times S' = get_observed_times S := by
  rw [get_observed_times, get_observed_times]
  apply sorted_set_congr
  intro a
  constructor
  · intro ha
    simp only [List.mem_flatten, List.mem_map] at ha
    obtain ⟨l, ⟨SED', hSED', rfl⟩, haf⟩ := ha
    obtain ⟨f, hf, rfl⟩ := List.mem_map.mp haf
    obtain ⟨SED, hSED, e, he, _, hprop⟩ := forall2_mem_right hext SED' hSED'
    rw [he] at hf
    rcases List.mem_append.mp hf with hmem | hmem
    · simp only [List.mem_flatten, List.mem_map]
      exact ⟨get_times SED, ⟨SED, hSED, rfl⟩, List.mem_map_of_mem _ hmem⟩
    · have hm := (hprop f hmem).2
      rw [get_observed_times] at hm
      exact (mem_sorted_set _ _).mp hm
  · intro ha
    simp only [List.mem_flatten, List.mem_map] at ha ⊢
    obtain ⟨l, ⟨SED, hSED, rfl⟩, haf⟩ := ha
    obtain ⟨SED', hSED', e, he, _, _⟩ := forall2_mem_left hext SED hSED
    obtain ⟨f, hf, rfl⟩ := List.mem_map.mp haf
    exact ⟨get_times SED', ⟨SED', hSED', rfl⟩,
      List.mem_map_of_mem _ (by rw [he]; exact List.mem_append_left _ hf)⟩

/-- C7: `interpolate_missing_fluxes` is idempotent: a second run on the
result of a completed run appends nothing and returns the collection
unchanged. -/
theorem claim_C7_interpolate_idempotent (SEDs SEDs' : List (List MonochromaticFlux))
    (h : interpolate_missing_fluxes SEDs = some SEDs') :
    interpolate_missing_fluxes SEDs' = some SEDs' := by
  rw [interpolate_missing_fluxes] at h
  obtain ⟨hext, hcerts⟩ := iow_post (get_observed_times SEDs)
    (get_observed_wavelengths SEDs) SEDs SEDs'
    (by rw [get_observed_wavelengths]; exact sorted_set_nodup _) h
  have hwls := observed_wavelengths_eq SEDs SEDs' hext
  have hots := observed_times_eq (get_observed_wavelengths SEDs) SEDs SEDs' hext
  rw [interpolate_missing_fluxes, hwls, hots]
  exact iow_saturated (get_observed_times SEDs) (get_observed_wavelengths SEDs) SEDs' hcerts

theorem claim_C7_witness :
    interpolate_missing_fluxes [[(⟨1, 1, 3, 1⟩ : MonochromaticFlux)]]
      = some [[⟨1, 1, 3, 1⟩]] :=
  claim_C7_interpolate_idempotent [[⟨1, 1, 3, 1⟩]] [[⟨1, 1, 3, 1⟩]]
    (by with_unfolding_all rfl)
